import Mathlib

/-!
Verification of the StateVectorSync engine (`SvSync`), its state-vector data
structure, and the SVS-PS subscriber (`SvSubscriber`) of the NDNts sync
package, against the natural-language specification.

Publisher identifiers are modelled as naturals; a state vector is an ordered
mapping from publisher identifier to sequence number, represented as an
association list with strictly increasing keys.
-/

namespace NDNtsSvs

/-- A state vector: association list of (publisher id, sequence number). -/
abbrev SvVector := List (Nat × Nat)

/-- Modelled from the spec: `SvStateVector.get` (state-vector.ts is not in the
corpus) — `get(id) -> seqNum`, default 0 for unknown id. -/
def svGet : SvVector → Nat → Nat
  | [], _ => 0
  | p :: v, i => if p.1 = i then p.2 else svGet v i

/-- Modelled from the spec: `SvStateVector.set` — sets the value for one id
directly, keeping the mapping ordered (strictly increasing keys). -/
def svSet : SvVector → Nat → Nat → SvVector
  | [], i, n => [(i, n)]
  | p :: v, i, n =>
    if i < p.1 then (i, n) :: p :: v
    else if p.1 < i then p :: svSet v i n
    else (i, n) :: v

/-- Modelled from the spec: `SvStateVector.mergeFrom(other)` — for every id in
`other`, set this vector's value to `max(this.get(id), other.get(id))`. -/
def svMergeFrom (v o : SvVector) : SvVector :=
  o.foldl (fun acc p => svSet acc p.1 (max (svGet acc p.1) p.2)) v

/-- Well-formedness of a state vector as an ordered mapping:
keys strictly increase along the list. -/
def svSorted (v : SvVector) : Prop :=
  List.Pairwise (fun p q : Nat × Nat => p.1 < q.1) v

instance (v : SvVector) : Decidable (svSorted v) :=
  inferInstanceAs (Decidable (List.Pairwise _ v))

/-- Modelled from the spec: `SvStateVector.listOlderThan(other)` — for every id
where `this.get(id) < other.get(id)`, emit one range
`(this.get(id)+1 .. other.get(id))`, as `(id, loSeqNum, hiSeqNum)`. -/
def svListOlderThan (v o : SvVector) : List (Nat × Nat × Nat) :=
  o.filterMap fun p => if svGet v p.1 < p.2 then some (p.1, svGet v p.1 + 1, p.2) else none

/-- State of one `SvSync` engine (sync.ts): own vector, the aggregated vector
(defined exactly in suppression state), and the absolute deadline of the
pending sync Interest timer. -/
structure SvSync where
  own : SvVector
  aggregated : Option SvVector
  deadline : Nat
deriving DecidableEq

/-- Observable output of one engine step: `SyncUpdate` events dispatched
(as `(id, loSeqNum, hiSeqNum)` triples) and sync Interests broadcast
(each carrying the own vector at sending time). -/
structure SvOutput where
  updates : List (Nat × Nat × Nat)
  sent : List SvVector
deriving DecidableEq

/-- `SvSync.handleSyncInterest` (sync.ts lines 109-135), for a sync Interest
that passed verification and decoded to `recv`.  Computes `ourOlder` and
`ourNewer` before merging, merges `recv` into `own`, emits one update per
`ourOlder` range, then: in suppression state merges `recv` into `aggregated`
without touching the timer; in steady state either enters suppression
(arming the suppression timer) when `ourNewer` is non-empty, or restarts the
steady timer.  `supDelay`/`stDelay` are the sampled jittered timer delays and
`now` the current time. -/
def handleSyncInterest (s : SvSync) (recv : SvVector) (supDelay stDelay now : Nat) :
    SvSync × SvOutput :=
  let ourOlder := svListOlderThan s.own recv
  let ourNewer := svListOlderThan recv s.own
  let own' := svMergeFrom s.own recv
  match s.aggregated with
  | some agg => (⟨own', some (svMergeFrom agg recv), s.deadline⟩, ⟨ourOlder, []⟩)
  | none =>
    if 0 < ourNewer.length then
      (⟨own', some recv, now + supDelay⟩, ⟨ourOlder, []⟩)
    else
      (⟨own', none, now + stDelay⟩, ⟨ourOlder, []⟩)

/-- `SvSync.handleTimer` (sync.ts lines 143-160).  In suppression state:
broadcast own vector iff `aggregated.listOlderThan(own)` is non-empty, clear
`aggregated`, and rearm the (now steady) timer.  In steady state: broadcast
own vector and rearm the steady timer. -/
def handleTimer (s : SvSync) (stDelay now : Nat) : SvSync × SvOutput :=
  match s.aggregated with
  | some agg =>
    let ourNewer := svListOlderThan agg s.own
    (⟨s.own, none, now + stDelay⟩, ⟨[], if 0 < ourNewer.length then [s.own] else []⟩)
  | none => (⟨s.own, none, now + stDelay⟩, ⟨[], [s.own]⟩)

/-- `SvSyncNode.seqNum` setter (sync.ts lines 243-250) combined with
`SvSync.handlePublish`: an assignment `n` at node `id` is ignored when
`n <= current`; otherwise it sets `own[id] = n` and schedules an immediate
(zero-delay) timer firing. -/
def setSeqNum (s : SvSync) (id n now : Nat) : SvSync :=
  if n ≤ svGet s.own id then s
  else ⟨svSet s.own id n, s.aggregated, now⟩

/-- Reachable engine states: from the initial state (empty own vector, steady
state), via local publishes, verified sync Interests carrying well-formed
(ordered) vectors, and timer firings. -/
inductive Reachable : SvSync → Prop
  | init (d : Nat) : Reachable ⟨[], none, d⟩
  | publish (s : SvSync) (id n now : Nat) :
      Reachable s → Reachable (setSeqNum s id n now)
  | recv (s : SvSync) (r : SvVector) (supDelay stDelay now : Nat) :
      Reachable s → svSorted r → Reachable (handleSyncInterest s r supDelay stDelay now).1
  | timer (s : SvSync) (stDelay now : Nat) :
      Reachable s → Reachable (handleTimer s stDelay now).1

/-- Engine invariant: the own vector is well-formed, and in suppression state
the aggregated vector is well-formed and pointwise dominated by the own
vector. -/
abbrev SvInv (s : SvSync) : Prop :=
  svSorted s.own ∧ ∀ agg, s.aggregated = some agg →
    svSorted agg ∧ ∀ i, svGet agg i ≤ svGet s.own i

/-! ### SVS-PS subscriber (subscriber.ts)

Names are modelled as lists of components (naturals); payload bytes as lists of
naturals.  A mapping entry carries the entry's name and opaque metadata. -/

/-- A mapping entry `{name, metadata}` (mapping-entry.ts), as consumed by
filter functions. -/
structure MappingEntry where
  name : List Nat
  meta : Nat

/-- One name-prefix subscription: its topic prefix and, for
`SubscribePrefixFilter`, the attached filter function (kept in `nameFilters`
in the source). -/
structure NameSub where
  pfx : List Nat
  filter : Option (MappingEntry → Bool)

/-- Whether the first name is a prefix of the second (component-wise). -/
def pfxMatch : List Nat → List Nat → Bool
  | [], _ => true
  | _ :: _, [] => false
  | a :: p, b :: n => a == b && pfxMatch p n

/-- `SvSubscriber.listNameSubs` (subscriber.ts lines 198-212): all name-prefix
subscriptions whose prefix matches `nm`; when a mapping `entry` is supplied, a
subscription with a filter is kept only if the filter does not return false on
the entry; without an entry every prefix-matching subscription is kept. -/
def listNameSubs (tbl : List NameSub) (nm : List Nat) (entry : Option MappingEntry) :
    List NameSub :=
  tbl.filter fun sub =>
    pfxMatch sub.pfx nm &&
    match entry, sub.filter with
    | some e, some f => f e
    | _, _ => true

/-- The name-subscription delivery decision of `SvSubscriber.dispatchUpdate`
(subscriber.ts lines 152-196): `none` when the update is dropped before
dispatch (no mapping entry, or no interested subscription and no
publisher-scoped subscription); otherwise the list of name-prefix
subscriptions the update is delivered to.  `nPub` is the number of
publisher-scoped subscriptions for the update's publisher, `mapping` the
retrieved mapping (when one was retrieved), and `effName` the effective name
decoded from the inner Data. -/
def dispatchUpdateNameSubs (tbl : List NameSub) (nPub : Nat)
    (mapping : Option (Nat → Option MappingEntry)) (seqNum : Nat)
    (effName : List Nat) : Option (List NameSub) :=
  match nPub, mapping with
  | 0, some m =>
    match m seqNum with
    | none => none
    | some entry =>
      let subs := listNameSubs tbl entry.name (some entry)
      if subs.isEmpty then none else some subs
  | _, _ =>
    let subs := listNameSubs tbl effName
      (match mapping with | some m => m seqNum | none => none)
    if subs.isEmpty && nPub == 0 then none else some subs

/-- `SvSubscriber.handleSyncUpdate` + `dispatchUpdate` composed on the
mapping-retrieval decision (subscriber.ts lines 109-126): the mapping is
retrieved only when a name subscription exists and either no publisher-scoped
subscription matches or `mustFilterByMapping` is set; `m` models the mapping
that retrieval would produce. -/
def svSubscriberDispatch (tbl : List NameSub) (nPub : Nat) (mustFilter : Bool)
    (m : Nat → Option MappingEntry) (seqNum : Nat) (effName : List Nat) :
    Option (List NameSub) :=
  let mapping := if !tbl.isEmpty && (nPub == 0 || mustFilter) then some m else none
  dispatchUpdateNameSubs tbl nPub mapping seqNum effName

/-- `SyncUpdate.seqNums()`: the sequence numbers of the inclusive range
`[lo, hi]`. -/
def seqNums (lo hi : Nat) : List Nat := List.range' lo (hi + 1 - lo)

/-- Fuelled worker for `chunksOf`; `fuel` bounds the recursion depth. -/
def chunksOfGo (k : Nat) : Nat → List Nat → List (List Nat)
  | 0, _ => []
  | _, [] => []
  | fuel + 1, x :: xs => (x :: xs.take (k - 1)) :: chunksOfGo k fuel (xs.drop (k - 1))

/-- `batch(mappingBatch)` from streaming-iterables as used by
`SvSubscriber.retrieveMapping`: splits a list into consecutive chunks of at
most `k` elements. -/
def chunksOf (k : Nat) (xs : List Nat) : List (List Nat) := chunksOfGo k xs.length xs

/-- `SvSubscriber.retrieveMapping` (subscriber.ts lines 128-150), reduced to
the Interests it issues: one request per batch, covering the batch's first
(`range[0]`) through last (`range.at(-1)`) sequence number. -/
def mappingRequests (k lo hi : Nat) : List (Nat × Nat) :=
  (chunksOf k (seqNums lo hi)).map fun c => (c.headD 0, c.getLastD 0)

/-- One arrived segment stored into the sparse `segments` array
(`segments[segNum] = inner.content`). -/
def segStore (st : Nat → Option (List Nat)) (p : Nat × List Nat) :
    Nat → Option (List Nat) :=
  fun i => if i = p.1 then some p.2 else st i

/-- `SvSubscriber.retrieveSegmented` (subscriber.ts lines 214-231), reduced to
reassembly: store each arrived segment's content at its segment index, count
the arrivals, and concatenate the stored contents in index order. -/
def retrieveSegmented (arrivals : List (Nat × List Nat)) : List Nat :=
  let segments := arrivals.foldl segStore (fun _ => none)
  ((List.range arrivals.length).map fun i => (segments i).getD []).flatten

/-- An error reported through the subscriber's error channel. -/
structure DispatchErr where
  id : Nat
  seqNum : Nat
  msg : String
deriving DecidableEq

/-- The error message emitted by `SvSubscriber.handleSyncUpdate` when
`dispatchUpdate` throws for one sequence number. -/
def dispatchErrMsg (id seqNum : Nat) (e : String) : String :=
  s!"dispatchUpdate({id}, {seqNum}): {e}"

/-- `SvSubscriber.handleSyncUpdate` (subscriber.ts lines 109-126), reduced to
its per-sequence-number outcomes: every sequence number of the update's range
is processed; a `dispatchUpdate` failure is caught and reported as a
`DispatchErr` naming the publisher and the sequence number, a success yields
the dispatched sequence number. -/
def handleSyncUpdateResults (id : Nat) (dispatch : Nat → Except String Unit)
    (lo hi : Nat) : List (Except DispatchErr Nat) :=
  (seqNums lo hi).map fun n =>
    match dispatch n with
    | .ok _ => .ok n
    | .error e => .error ⟨id, n, dispatchErrMsg id n e⟩

/-! ### Helper lemmas: state-vector algebra -/

theorem svGet_svSet (v : SvVector) (i n j : Nat) :
    svGet (svSet v i n) j = if j = i then n else svGet v j := by
  induction v with
  | nil =>
    simp only [svSet, svGet]
    by_cases h : j = i
    · rw [if_pos (by omega), if_pos h]
    · rw [if_neg (by omega), if_neg h]
  | cons p v ih =>
    simp only [svSet]
    rcases Nat.lt_trichotomy i p.1 with hlt | heq | hgt
    · rw [if_pos hlt]
      by_cases h : j = i
      · simp only [svGet]
        rw [if_pos (by omega), if_pos h]
      · simp only [svGet]
        rw [if_neg (by omega), if_neg h]
    · rw [if_neg (by omega), if_neg (by omega)]
      by_cases h : j = i
      · simp only [svGet]
        rw [if_pos (by omega), if_pos h]
      · simp only [svGet]
        rw [if_neg (by omega), if_neg h, if_neg (by omega)]
    · rw [if_neg (by omega), if_pos hgt]
      by_cases hp : p.1 = j
      · simp only [svGet]
        rw [if_pos hp, if_pos hp, if_neg (by omega)]
      · simp only [svGet]
        rw [if_neg hp, if_neg hp, ih]

theorem mem_svSet_elim (v : SvVector) (i n : Nat) (q : Nat × Nat)
    (h : q ∈ svSet v i n) : q = (i, n) ∨ q ∈ v := by
  induction v with
  | nil => simpa [svSet] using h
  | cons p v ih =>
    simp only [svSet] at h
    rcases Nat.lt_trichotomy i p.1 with hlt | heq | hgt
    · rw [if_pos hlt] at h
      simp only [List.mem_cons] at h
      rcases h with h | h | h
      · exact Or.inl h
      · exact Or.inr (List.mem_cons.mpr (Or.inl h))
      · exact Or.inr (List.mem_cons.mpr (Or.inr h))
    · rw [if_neg (by omega), if_neg (by omega)] at h
      simp only [List.mem_cons] at h
      rcases h with h | h
      · exact Or.inl h
      · exact Or.inr (List.mem_cons.mpr (Or.inr h))
    · rw [if_neg (by omega), if_pos hgt] at h
      simp only [List.mem_cons] at h
      rcases h with h | h
      · exact Or.inr (List.mem_cons.mpr (Or.inl h))
      · rcases ih h with h | h
        · exact Or.inl h
        · exact Or.inr (List.mem_cons.mpr (Or.inr h))

theorem mem_keys_svSet (v : SvVector) (i n j : Nat) :
    j ∈ (svSet v i n).map Prod.fst ↔ j = i ∨ j ∈ v.map Prod.fst := by
  induction v with
  | nil => simp [svSet]
  | cons p v ih =>
    simp only [svSet]
    rcases Nat.lt_trichotomy i p.1 with hlt | heq | hgt
    · rw [if_pos hlt]; simp
    · rw [if_neg (by omega), if_neg (by omega)]
      simp only [List.map_cons, List.mem_cons]
      constructor
      · rintro (h | h)
        · exact Or.inl h
        · exact Or.inr (Or.inr h)
      · rintro (h | h | h)
        · exact Or.inl h
        · exact Or.inl (by omega)
        · exact Or.inr h
    · rw [if_neg (by omega), if_pos hgt]
      simp only [List.map_cons, List.mem_cons, ih]
      tauto

theorem svSorted_svSet (v : SvVector) (i n : Nat) (hv : svSorted v) :
    svSorted (svSet v i n) := by
  induction v with
  | nil => simp [svSet, svSorted]
  | cons p v ih =>
    rcases List.pairwise_cons.mp hv with ⟨hp, hv'⟩
    simp only [svSet]
    rcases Nat.lt_trichotomy i p.1 with hlt | heq | hgt
    · rw [if_pos hlt]
      refine List.pairwise_cons.mpr ⟨?_, hv⟩
      intro q hq
      rcases List.mem_cons.mp hq with h | h
      · simpa [h] using hlt
      · exact lt_trans hlt (hp q h)
    · rw [if_neg (by omega), if_neg (by omega)]
      refine List.pairwise_cons.mpr ⟨?_, hv'⟩
      intro q hq
      have := hp q hq
      omega
    · rw [if_neg (by omega), if_pos hgt]
      refine List.pairwise_cons.mpr ⟨?_, ih hv'⟩
      intro q hq
      rcases mem_svSet_elim v i n q hq with h | h
      · simpa [h] using hgt
      · exact hp q h

theorem svGet_eq_zero_of_not_mem (v : SvVector) (i : Nat)
    (h : i ∉ v.map Prod.fst) : svGet v i = 0 := by
  induction v with
  | nil => rfl
  | cons p v ih =>
    simp only [List.map_cons, List.mem_cons] at h
    push_neg at h
    simp only [svGet]
    rw [if_neg (fun hh => h.1 hh.symm), ih h.2]

theorem svGet_of_mem_sorted (v : SvVector) (i b : Nat)
    (hv : svSorted v) (h : (i, b) ∈ v) : svGet v i = b := by
  induction v with
  | nil => cases h
  | cons p v ih =>
    rcases List.pairwise_cons.mp hv with ⟨hp, hv'⟩
    rcases List.mem_cons.mp h with h | h
    · simp only [svGet]
      rw [if_pos (by rw [← h]), ← h]
    · have hlt := hp _ h
      simp only [svGet]
      rw [if_neg (by omega), ih hv' h]

theorem keys_nodup_of_sorted (v : SvVector) (hv : svSorted v) :
    (v.map Prod.fst).Nodup := by
  rw [List.nodup_iff_sublist]
  intro a hsub
  have : List.Pairwise (· < ·) (v.map Prod.fst) := by
    rw [List.pairwise_map]
    exact hv
  have := List.Pairwise.sublist hsub this
  rcases List.pairwise_cons.mp this with ⟨ha, _⟩
  exact absurd (ha a (List.mem_singleton_self a)) (lt_irrefl a)

theorem svSorted_mergeFrom (v o : SvVector) (hv : svSorted v) :
    svSorted (svMergeFrom v o) := by
  induction o generalizing v with
  | nil => exact hv
  | cons p o ih =>
    simp only [svMergeFrom, List.foldl_cons]
    exact ih _ (svSorted_svSet _ _ _ hv)

theorem mem_keys_mergeFrom (v o : SvVector) (i : Nat) :
    i ∈ (svMergeFrom v o).map Prod.fst ↔ i ∈ v.map Prod.fst ∨ i ∈ o.map Prod.fst := by
  induction o generalizing v with
  | nil => simp [svMergeFrom]
  | cons p o ih =>
    simp only [svMergeFrom, List.foldl_cons] at *
    rw [ih]
    simp only [mem_keys_svSet, List.map_cons, List.mem_cons]
    tauto

theorem svGet_mergeFrom (v o : SvVector) (i : Nat)
    (hnd : (o.map Prod.fst).Nodup) :
    svGet (svMergeFrom v o) i = max (svGet v i) (svGet o i) := by
  induction o generalizing v with
  | nil => simp [svMergeFrom, svGet]
  | cons p o ih =>
    simp only [List.map_cons, List.nodup_cons] at hnd
    simp only [svMergeFrom, List.foldl_cons] at *
    rw [ih _ hnd.2, svGet_svSet]
    by_cases h : i = p.1
    · rw [if_pos h, svGet_eq_zero_of_not_mem o i (h ▸ hnd.1)]
      simp only [svGet]
      rw [if_pos h.symm, h]
      omega
    · rw [if_neg h]
      simp only [svGet]
      rw [if_neg (fun hh => h hh.symm)]

/-- Two well-formed (ordered) state vectors with the same key set and the same
values are equal. -/
theorem svExt (v : SvVector) : ∀ w : SvVector, svSorted v → svSorted w →
    (∀ i, i ∈ v.map Prod.fst ↔ i ∈ w.map Prod.fst) →
    (∀ i, svGet v i = svGet w i) → v = w := by
  induction v with
  | nil =>
    intro w _ _ hk _
    cases w with
    | nil => rfl
    | cons q w => exact absurd ((hk q.1).mpr (by simp)) (by simp)
  | cons p v ih =>
    intro w hv hw hk hg
    cases w with
    | nil => exact absurd ((hk p.1).mp (by simp)) (by simp)
    | cons q w =>
      rcases List.pairwise_cons.mp hv with ⟨hpv, hv'⟩
      rcases List.pairwise_cons.mp hw with ⟨hqw, hw'⟩
      have hpk : p.1 = q.1 := by
        rcases List.mem_cons.mp ((hk p.1).mp (by simp)) with h | h
        · omega
        · rcases List.mem_map.mp h with ⟨r, hr, hr1⟩
          have h1 : q.1 < p.1 := by have := hqw r hr; omega
          rcases List.mem_cons.mp ((hk q.1).mpr (by simp)) with h' | h'
          · omega
          · rcases List.mem_map.mp h' with ⟨r', hr', hr1'⟩
            have h2 : p.1 < q.1 := by have := hpv r' hr'; omega
            omega
      have hpq : p = q := by
        have h1 : svGet (p :: v) p.1 = p.2 := by simp [svGet]
        have h2 : svGet (q :: w) q.1 = q.2 := by simp [svGet]
        have := hg p.1
        rw [h1, hpk, h2] at this
        exact Prod.ext hpk (by omega)
      have htail : v = w := by
        refine ih w hv' hw' ?_ ?_
        · intro i
          constructor
          · intro hi
            have hip : p.1 < i := by
              rcases List.mem_map.mp hi with ⟨r, hr, hr1⟩
              exact hr1 ▸ hpv r hr
            rcases List.mem_cons.mp ((hk i).mp (by simp [hi])) with h | h
            · omega
            · exact h
          · intro hi
            have hiq : q.1 < i := by
              rcases List.mem_map.mp hi with ⟨r, hr, hr1⟩
              exact hr1 ▸ hqw r hr
            rcases List.mem_cons.mp ((hk i).mpr (by simp [hi])) with h | h
            · omega
            · exact h
        · intro i
          by_cases h : i = p.1
          · have h1 : i ∉ v.map Prod.fst := by
              intro hi
              rcases List.mem_map.mp hi with ⟨r, hr, hr1⟩
              have := hpv r hr
              omega
            have h2 : i ∉ w.map Prod.fst := by
              intro hi
              rcases List.mem_map.mp hi with ⟨r, hr, hr1⟩
              have := hqw r hr
              omega
            rw [svGet_eq_zero_of_not_mem _ _ h1, svGet_eq_zero_of_not_mem _ _ h2]
          · have := hg i
            simp only [svGet] at this
            rw [if_neg (fun hh => h hh.symm), if_neg (by omega)] at this
            exact this
      rw [hpq, htail]

/-! ### Helper lemmas: the engine's step equations and invariant -/

theorem handleSyncInterest_suppression_eq (own agg : SvVector) (d : Nat)
    (r : SvVector) (supD stD now : Nat) :
    handleSyncInterest ⟨own, some agg, d⟩ r supD stD now =
      (⟨svMergeFrom own r, some (svMergeFrom agg r), d⟩,
       ⟨svListOlderThan own r, []⟩) := rfl

theorem handleSyncInterest_steady_eq (own : SvVector) (d : Nat)
    (r : SvVector) (supD stD now : Nat) :
    handleSyncInterest ⟨own, none, d⟩ r supD stD now =
      if 0 < (svListOlderThan r own).length then
        (⟨svMergeFrom own r, some r, now + supD⟩, ⟨svListOlderThan own r, []⟩)
      else
        (⟨svMergeFrom own r, none, now + stD⟩, ⟨svListOlderThan own r, []⟩) := rfl

theorem handleTimer_suppression_eq (own agg : SvVector) (d stD now : Nat) :
    handleTimer ⟨own, some agg, d⟩ stD now =
      (⟨own, none, now + stD⟩,
       ⟨[], if 0 < (svListOlderThan agg own).length then [own] else []⟩) := rfl

theorem handleTimer_steady_eq (own : SvVector) (d stD now : Nat) :
    handleTimer ⟨own, none, d⟩ stD now =
      (⟨own, none, now + stD⟩, ⟨[], [own]⟩) := rfl

theorem svListOlderThan_eq_nil (v o : SvVector) (ho : svSorted o)
    (hle : ∀ i, svGet o i ≤ svGet v i) : svListOlderThan v o = [] := by
  rw [svListOlderThan, List.filterMap_eq_nil_iff]
  intro p hp
  have h1 : svGet o p.1 = p.2 := svGet_of_mem_sorted o p.1 p.2 ho hp
  have h2 := hle p.1
  rw [if_neg (by omega)]

theorem reachable_inv (s : SvSync) (h : Reachable s) : SvInv s := by
  induction h with
  | init d =>
    exact ⟨List.Pairwise.nil, fun agg hagg => nomatch hagg⟩
  | publish s id n now _ ih =>
    obtain ⟨hown, haggs⟩ := ih
    by_cases hle : n ≤ svGet s.own id
    · rw [setSeqNum, if_pos hle]
      exact ⟨hown, haggs⟩
    · rw [setSeqNum, if_neg hle]
      refine ⟨svSorted_svSet _ _ _ hown, ?_⟩
      intro agg hagg
      obtain ⟨hs, hle'⟩ := haggs agg hagg
      refine ⟨hs, fun i => ?_⟩
      rw [svGet_svSet]
      by_cases hi : i = id
      · rw [if_pos hi, hi]
        have h1 := hle' i
        rw [hi] at h1
        omega
      · rw [if_neg hi]
        exact hle' i
  | recv s r supD stD now _ hsr ih =>
    obtain ⟨hown, haggs⟩ := ih
    obtain ⟨own, sagg, d⟩ := s
    have hndr := keys_nodup_of_sorted r hsr
    cases sagg with
    | some agg =>
      obtain ⟨hsa, hlea⟩ := haggs agg rfl
      rw [handleSyncInterest_suppression_eq]
      refine ⟨svSorted_mergeFrom _ _ hown, ?_⟩
      intro agg' hagg'
      injection hagg' with h
      subst h
      refine ⟨svSorted_mergeFrom _ _ hsa, fun i => ?_⟩
      dsimp only
      rw [svGet_mergeFrom _ _ _ hndr, svGet_mergeFrom _ _ _ hndr]
      have h2 : svGet agg i ≤ svGet own i := hlea i
      omega
    | none =>
      rw [handleSyncInterest_steady_eq]
      by_cases hc : 0 < (svListOlderThan r own).length
      · rw [if_pos hc]
        refine ⟨svSorted_mergeFrom _ _ hown, ?_⟩
        intro agg' hagg'
        injection hagg' with h
        subst h
        refine ⟨hsr, fun i => ?_⟩
        dsimp only
        rw [svGet_mergeFrom _ _ _ hndr]
        omega
      · rw [if_neg hc]
        exact ⟨svSorted_mergeFrom _ _ hown, fun agg' hagg' => nomatch hagg'⟩
  | timer s stD now _ ih =>
    obtain ⟨hown, _⟩ := ih
    obtain ⟨own, sagg, d⟩ := s
    cases sagg with
    | some agg =>
      rw [handleTimer_suppression_eq]
      exact ⟨hown, fun a ha => nomatch ha⟩
    | none =>
      rw [handleTimer_steady_eq]
      exact ⟨hown, fun a ha => nomatch ha⟩

/-! ### Claims about the SvSync engine -/

/-- C1, counterexample to the claim as stated: with own = {0:5} and
aggregated = {0:3}, `own.listOlderThan(aggregated)` is empty, yet the
suppression timer firing does send a broadcast (the code tests
`aggregated.listOlderThan(own)`, not `own.listOlderThan(aggregated)`). -/
theorem handleTimer_claimed_iff_cex :
    svListOlderThan [(0, 5)] [(0, 3)] = [] ∧
    (handleTimer ⟨[(0, 5)], some [(0, 3)], 7⟩ 10 20).2.sent ≠ [] := by decide

/-- C1 (amended): when the suppression timer fires, the engine sends a gossip
broadcast (exactly one, carrying the own vector) if and only if
`aggregated.listOlderThan(own)` is non-empty; in both cases it clears
`aggregated`, returns to steady state, and arms the steady timer. -/
theorem handleTimer_suppression_behavior (s : SvSync) (agg : SvVector)
    (stD now : Nat) (hagg : s.aggregated = some agg) :
    ((handleTimer s stD now).2.sent ≠ [] ↔ svListOlderThan agg s.own ≠ []) ∧
    (∀ b ∈ (handleTimer s stD now).2.sent, b = s.own) ∧
    (handleTimer s stD now).2.sent.length ≤ 1 ∧
    (handleTimer s stD now).1.aggregated = none ∧
    (handleTimer s stD now).1.own = s.own ∧
    (handleTimer s stD now).1.deadline = now + stD := by
  obtain ⟨own, sagg, d⟩ := s
  cases sagg with
  | none => nomatch hagg
  | some a =>
    injection hagg with h
    subst h
    rw [handleTimer_suppression_eq]
    dsimp only
    by_cases hc : 0 < (svListOlderThan a own).length
    · have hne : svListOlderThan a own ≠ [] := by
        intro h0
        rw [h0] at hc
        simp at hc
      rw [if_pos hc]
      exact ⟨by simp [hne], by simp, by simp, rfl, rfl, rfl⟩
    · have he : svListOlderThan a own = [] := by
        have : (svListOlderThan a own).length = 0 := by omega
        exact List.eq_nil_of_length_eq_zero this
      rw [if_neg hc]
      exact ⟨by simp [he], by simp, by simp, rfl, rfl, rfl⟩

theorem handleTimer_suppression_behavior_witness :
    (⟨[(0, 5)], some [(0, 3)], 7⟩ : SvSync).aggregated = some [(0, 3)] ∧
    (((handleTimer ⟨[(0, 5)], some [(0, 3)], 7⟩ 10 20).2.sent ≠ [] ↔
        svListOlderThan [(0, 3)] (⟨[(0, 5)], some [(0, 3)], 7⟩ : SvSync).own ≠ []) ∧
     (∀ b ∈ (handleTimer ⟨[(0, 5)], some [(0, 3)], 7⟩ 10 20).2.sent,
        b = (⟨[(0, 5)], some [(0, 3)], 7⟩ : SvSync).own) ∧
     (handleTimer ⟨[(0, 5)], some [(0, 3)], 7⟩ 10 20).2.sent.length ≤ 1 ∧
     (handleTimer ⟨[(0, 5)], some [(0, 3)], 7⟩ 10 20).1.aggregated = none ∧
     (handleTimer ⟨[(0, 5)], some [(0, 3)], 7⟩ 10 20).1.own =
        (⟨[(0, 5)], some [(0, 3)], 7⟩ : SvSync).own ∧
     (handleTimer ⟨[(0, 5)], some [(0, 3)], 7⟩ 10 20).1.deadline = 20 + 10) :=
  ⟨rfl, handleTimer_suppression_behavior ⟨[(0, 5)], some [(0, 3)], 7⟩ [(0, 3)] 10 20 rfl⟩

/-- C2: an engine in steady state with own = {0:5} receiving remote {0:3}
emits no SyncUpdate and sends nothing, enters suppression with
aggregated = {0:3} and own unchanged; when the suppression timer then fires,
exactly one broadcast is sent, carrying the own vector {0:5}. -/
theorem svSync_scenario2 :
    (handleSyncInterest ⟨[(0, 5)], none, 0⟩ [(0, 3)] 2 30 1).2.updates = [] ∧
    (handleSyncInterest ⟨[(0, 5)], none, 0⟩ [(0, 3)] 2 30 1).2.sent = [] ∧
    (handleSyncInterest ⟨[(0, 5)], none, 0⟩ [(0, 3)] 2 30 1).1.aggregated = some [(0, 3)] ∧
    (handleSyncInterest ⟨[(0, 5)], none, 0⟩ [(0, 3)] 2 30 1).1.own = [(0, 5)] ∧
    (handleTimer (handleSyncInterest ⟨[(0, 5)], none, 0⟩ [(0, 3)] 2 30 1).1 30 3).2.sent
      = [[(0, 5)]] ∧
    (handleTimer (handleSyncInterest ⟨[(0, 5)], none, 0⟩ [(0, 3)] 2 30 1).1 30 3).1.aggregated
      = none := by decide

/-- C3: in every reachable state whose `aggregated` vector is defined
(suppression state), the own vector pointwise dominates the aggregated
vector, so `own.listOlderThan(aggregated)` is empty whenever the suppression
timer fires. -/
theorem svSync_suppression_invariant (s : SvSync) (agg : SvVector)
    (hr : Reachable s) (hagg : s.aggregated = some agg) :
    (∀ i, svGet agg i ≤ svGet s.own i) ∧ svListOlderThan s.own agg = [] := by
  obtain ⟨hown, haggs⟩ := reachable_inv s hr
  obtain ⟨hs, hle⟩ := haggs agg hagg
  exact ⟨hle, svListOlderThan_eq_nil _ _ hs hle⟩

theorem svSync_suppression_invariant_witness :
    ((handleSyncInterest (setSeqNum ⟨[], none, 0⟩ 0 5 1) [(0, 3)] 2 30 4).1.aggregated
       = some [(0, 3)]) ∧
    (∀ i, svGet [(0, 3)] i ≤
      svGet (handleSyncInterest (setSeqNum ⟨[], none, 0⟩ 0 5 1) [(0, 3)] 2 30 4).1.own i) ∧
    svListOlderThan
      (handleSyncInterest (setSeqNum ⟨[], none, 0⟩ 0 5 1) [(0, 3)] 2 30 4).1.own [(0, 3)]
      = [] :=
  ⟨rfl,
   svSync_suppression_invariant _ [(0, 3)]
     (Reachable.recv _ [(0, 3)] 2 30 4
       (Reachable.publish _ 0 5 1 (Reachable.init 0)) (by decide)) rfl⟩

/-- C4: on well-formed state vectors, `mergeFrom` is a join-semilattice
operation — commutative, associative, and idempotent. -/
theorem mergeFrom_join_semilattice (A B C : SvVector)
    (hA : svSorted A) (hB : svSorted B) (hC : svSorted C) :
    svMergeFrom A B = svMergeFrom B A ∧
    svMergeFrom (svMergeFrom A B) C = svMergeFrom A (svMergeFrom B C) ∧
    svMergeFrom A A = A := by
  have ndA := keys_nodup_of_sorted A hA
  have ndB := keys_nodup_of_sorted B hB
  have ndC := keys_nodup_of_sorted C hC
  have hBC : svSorted (svMergeFrom B C) := svSorted_mergeFrom _ _ hB
  have ndBC := keys_nodup_of_sorted _ hBC
  refine ⟨?_, ?_, ?_⟩
  · refine svExt _ _ (svSorted_mergeFrom _ _ hA) (svSorted_mergeFrom _ _ hB) ?_ ?_
    · intro i
      rw [mem_keys_mergeFrom, mem_keys_mergeFrom]
      tauto
    · intro i
      rw [svGet_mergeFrom A B i ndB, svGet_mergeFrom B A i ndA]
      exact Nat.max_comm _ _
  · refine svExt _ _ (svSorted_mergeFrom _ _ (svSorted_mergeFrom _ _ hA))
      (svSorted_mergeFrom _ _ hA) ?_ ?_
    · intro i
      rw [mem_keys_mergeFrom, mem_keys_mergeFrom, mem_keys_mergeFrom, mem_keys_mergeFrom]
      tauto
    · intro i
      rw [svGet_mergeFrom (svMergeFrom A B) C i ndC, svGet_mergeFrom A B i ndB,
          svGet_mergeFrom A (svMergeFrom B C) i ndBC, svGet_mergeFrom B C i ndC]
      exact Nat.max_assoc _ _ _
  · refine svExt _ _ (svSorted_mergeFrom _ _ hA) hA ?_ ?_
    · intro i
      rw [mem_keys_mergeFrom]
      tauto
    · intro i
      rw [svGet_mergeFrom A A i ndA]
      exact Nat.max_self _

theorem mergeFrom_join_semilattice_witness :
    svSorted [(0, 1), (2, 5)] ∧ svSorted [(1, 7)] ∧ svSorted [(0, 3)] ∧
    (svMergeFrom [(0, 1), (2, 5)] [(1, 7)] = svMergeFrom [(1, 7)] [(0, 1), (2, 5)] ∧
     svMergeFrom (svMergeFrom [(0, 1), (2, 5)] [(1, 7)]) [(0, 3)]
       = svMergeFrom [(0, 1), (2, 5)] (svMergeFrom [(1, 7)] [(0, 3)]) ∧
     svMergeFrom [(0, 1), (2, 5)] [(0, 1), (2, 5)] = [(0, 1), (2, 5)]) :=
  ⟨by decide, by decide, by decide,
   mergeFrom_join_semilattice [(0, 1), (2, 5)] [(1, 7)] [(0, 3)]
     (by decide) (by decide) (by decide)⟩

/-- C6: assigning `seqNum = n` with `n` at most the node's current sequence
number is a complete no-op: the engine state (own vector, aggregated vector,
timer deadline) is unchanged and no publish handling occurs. -/
theorem setSeqNum_le_noop (s : SvSync) (id n now : Nat)
    (h : n ≤ svGet s.own id) : setSeqNum s id n now = s := by
  rw [setSeqNum, if_pos h]

theorem setSeqNum_le_noop_witness :
    4 ≤ svGet [(0, 5)] 0 ∧
    setSeqNum ⟨[(0, 5)], none, 3⟩ 0 4 9 = ⟨[(0, 5)], none, 3⟩ :=
  ⟨by decide, setSeqNum_le_noop ⟨[(0, 5)], none, 3⟩ 0 4 9 (by decide)⟩

/-- C7: a remote vector received while the engine is in suppression state is
merged into `aggregated`, the pending suppression timer deadline is left
unchanged, and the engine remains in suppression. -/
theorem handleSyncInterest_in_suppression (s : SvSync) (agg recv : SvVector)
    (supD stD now : Nat) (hagg : s.aggregated = some agg) :
    (handleSyncInterest s recv supD stD now).1.aggregated
      = some (svMergeFrom agg recv) ∧
    (handleSyncInterest s recv supD stD now).1.deadline = s.deadline := by
  obtain ⟨own, sagg, d⟩ := s
  cases sagg with
  | none => nomatch hagg
  | some a =>
    injection hagg with h
    subst h
    rw [handleSyncInterest_suppression_eq]
    exact ⟨rfl, rfl⟩

theorem handleSyncInterest_in_suppression_witness :
    (⟨[(1, 2)], some [(0, 1)], 5⟩ : SvSync).aggregated = some [(0, 1)] ∧
    ((handleSyncInterest ⟨[(1, 2)], some [(0, 1)], 5⟩ [(0, 4)] 2 30 6).1.aggregated
       = some (svMergeFrom [(0, 1)] [(0, 4)]) ∧
     (handleSyncInterest ⟨[(1, 2)], some [(0, 1)], 5⟩ [(0, 4)] 2 30 6).1.deadline = 5) :=
  ⟨rfl, handleSyncInterest_in_suppression ⟨[(1, 2)], some [(0, 1)], 5⟩ [(0, 1)] [(0, 4)]
    2 30 6 rfl⟩

/-! ### Helper lemmas: subscriber batching, reassembly, filtering -/

theorem chunksOfGo_flatten (k : Nat) :
    ∀ (fuel : Nat) (xs : List Nat), xs.length ≤ fuel →
    (chunksOfGo k fuel xs).flatten = xs := by
  intro fuel
  induction fuel with
  | zero =>
    intro xs h
    have h0 : xs = [] := List.eq_nil_of_length_eq_zero (by omega)
    subst h0
    rfl
  | succ fuel ih =>
    intro xs h
    cases xs with
    | nil => rfl
    | cons x xs =>
      simp only [chunksOfGo, List.flatten_cons]
      rw [ih (xs.drop (k - 1)) (by
        simp only [List.length_drop]
        simp only [List.length_cons] at h
        omega)]
      rw [List.cons_append, List.take_append_drop]

theorem chunksOfGo_bounds (k : Nat) (hk : 0 < k) :
    ∀ (fuel : Nat) (xs : List Nat),
    ∀ c ∈ chunksOfGo k fuel xs, c ≠ [] ∧ c.length ≤ k := by
  intro fuel
  induction fuel with
  | zero =>
    intro xs c hc
    simp [chunksOfGo] at hc
  | succ fuel ih =>
    intro xs c hc
    cases xs with
    | nil => simp [chunksOfGo] at hc
    | cons x xs =>
      simp only [chunksOfGo, List.mem_cons] at hc
      rcases hc with rfl | hc
      · refine ⟨by simp, ?_⟩
        simp only [List.length_cons, List.length_take]
        omega
      · exact ih _ c hc

theorem take_range' : ∀ (n m s : Nat),
    (List.range' s n).take m = List.range' s (min m n) := by
  intro n
  induction n with
  | zero => intro m s; simp
  | succ n ih =>
    intro m s
    cases m with
    | zero => simp
    | succ m =>
      rw [List.range'_succ, List.take_cons (Nat.succ_pos m), Nat.succ_sub_one,
        ih m (s + 1)]
      have hmin : min (m + 1) (n + 1) = min m n + 1 := by omega
      rw [hmin, List.range'_succ]

theorem drop_range' : ∀ (n m s : Nat),
    (List.range' s n).drop m = List.range' (s + m) (n - m) := by
  intro n
  induction n with
  | zero => intro m s; simp
  | succ n ih =>
    intro m s
    cases m with
    | zero => simp
    | succ m =>
      rw [List.range'_succ, List.drop_succ_cons, ih m (s + 1)]
      congr 1 <;> omega

theorem chunksOfGo_range'_mem (k : Nat) :
    ∀ (fuel s n : Nat) (c : List Nat), n ≤ fuel →
    c ∈ chunksOfGo k fuel (List.range' s n) →
    ∃ s' n', 0 < n' ∧ c = List.range' s' n' := by
  intro fuel
  induction fuel with
  | zero =>
    intro s n c h hc
    have h0 : n = 0 := by omega
    subst h0
    simp [chunksOfGo] at hc
  | succ fuel ih =>
    intro s n c hn hc
    cases n with
    | zero => simp [chunksOfGo] at hc
    | succ n =>
      rw [List.range'_succ] at hc
      simp only [chunksOfGo, List.mem_cons] at hc
      rcases hc with rfl | hc
      · refine ⟨s, min (k - 1) n + 1, by omega, ?_⟩
        rw [take_range', List.range'_succ]
      · rw [drop_range'] at hc
        exact ih _ _ c (by omega) hc

theorem headD_range' (s n : Nat) (h : 0 < n) :
    (List.range' s n).headD 0 = s := by
  cases n with
  | zero => omega
  | succ n => rw [List.range'_succ]; rfl

theorem getLastD_range' : ∀ (n s d : Nat), 0 < n →
    (List.range' s n).getLastD d = s + n - 1 := by
  intro n
  induction n with
  | zero => intro s d h; omega
  | succ n ih =>
    intro s d h
    rw [List.range'_succ, List.getLastD_cons]
    cases n with
    | zero => simp
    | succ n =>
      rw [ih (s + 1) s (by omega)]
      omega

theorem foldl_segStore_not_mem (l : List (Nat × List Nat)) :
    ∀ (st : Nat → Option (List Nat)) (i : Nat), i ∉ l.map Prod.fst →
    l.foldl segStore st i = st i := by
  induction l with
  | nil => intro _ _ _; rfl
  | cons p t ih =>
    intro st i hi
    simp only [List.map_cons, List.mem_cons] at hi
    push_neg at hi
    rw [List.foldl_cons, ih _ _ hi.2]
    simp only [segStore]
    rw [if_neg hi.1]

theorem foldl_segStore_mem (l : List (Nat × List Nat)) :
    ∀ (st : Nat → Option (List Nat)) (i : Nat) (b : List Nat),
    (l.map Prod.fst).Nodup → (i, b) ∈ l →
    l.foldl segStore st i = some b := by
  induction l with
  | nil => intro _ _ _ _ h; cases h
  | cons p t ih =>
    intro st i b hnd hm
    simp only [List.map_cons, List.nodup_cons] at hnd
    rcases List.mem_cons.mp hm with h | h
    · obtain rfl : p = (i, b) := h.symm
      rw [List.foldl_cons, foldl_segStore_not_mem t _ i hnd.1]
      simp [segStore]
    · rw [List.foldl_cons]
      exact ih _ _ _ hnd.2 h

theorem not_mem_listNameSubs_of_filter_false (tbl : List NameSub) (nm : List Nat)
    (entry : MappingEntry) (sub : NameSub) (f : MappingEntry → Bool)
    (hf : sub.filter = some f) (hfe : ∀ e, f e = false) :
    sub ∉ listNameSubs tbl nm (some entry) := by
  intro hmem
  have h := (List.mem_filter.mp hmem).2
  rw [Bool.and_eq_true] at h
  rw [hf] at h
  have h3 : f entry = true := h.2
  rw [hfe entry] at h3
  cases h3

/-! ### Claims about the SVS-PS subscriber -/

/-- C5, counterexample to the claim as stated: with one publisher-scoped
subscription present and `mustFilterByMapping` left false, no mapping is
consulted, so a name-prefix subscription whose filter always returns false
does receive an update whose effective name lies under its prefix. -/
theorem alwaysFalse_filter_delivered_cex :
    svSubscriberDispatch [⟨[0], some fun _ => false⟩] 1 false
      (fun _ => some ⟨[0, 1], 0⟩) 1 [0, 1]
      = some [⟨[0], some fun _ => false⟩] := rfl

/-- C5 (amended): a name-prefix subscription whose filter always returns false
never receives an update for which a mapping entry is available (in
particular whenever the mapping was retrieved and contains the sequence
number); when no mapping entry is consulted — a publisher-scoped subscription
exists with `mustFilterByMapping` false, or the entry is missing — the filter
is not evaluated and the subscription is treated as an unfiltered prefix
subscription. -/
theorem alwaysFalse_filter_never_delivered (tbl : List NameSub) (nPub : Nat)
    (m : Nat → Option MappingEntry) (seqNum : Nat) (effName : List Nat)
    (sub : NameSub) (f : MappingEntry → Bool) (entry : MappingEntry)
    (subs : List NameSub)
    (hf : sub.filter = some f) (hfe : ∀ e, f e = false)
    (he : m seqNum = some entry)
    (hd : dispatchUpdateNameSubs tbl nPub (some m) seqNum effName = some subs) :
    sub ∉ subs := by
  cases nPub with
  | zero =>
    simp only [dispatchUpdateNameSubs] at hd
    rw [he] at hd
    dsimp only at hd
    by_cases hemp : (listNameSubs tbl entry.name (some entry)).isEmpty
    · rw [if_pos hemp] at hd
      cases hd
    · rw [if_neg hemp] at hd
      injection hd with hd
      subst hd
      exact not_mem_listNameSubs_of_filter_false tbl entry.name entry sub f hf hfe
  | succ nPub =>
    simp only [dispatchUpdateNameSubs] at hd
    rw [he] at hd
    by_cases hemp : (listNameSubs tbl effName (some entry)).isEmpty &&
        (nPub + 1 == 0)
    · rw [if_pos hemp] at hd
      cases hd
    · rw [if_neg hemp] at hd
      injection hd with hd
      subst hd
      exact not_mem_listNameSubs_of_filter_false tbl effName entry sub f hf hfe

theorem alwaysFalse_filter_never_delivered_witness :
    (⟨[0], some fun _ => false⟩ : NameSub).filter = some (fun _ => false) ∧
    (∀ e : MappingEntry, (fun _ => false : MappingEntry → Bool) e = false) ∧
    (fun _ => some (⟨[0, 1], 0⟩ : MappingEntry) : Nat → Option MappingEntry) 1
      = some ⟨[0, 1], 0⟩ ∧
    dispatchUpdateNameSubs [⟨[0], some fun _ => false⟩, ⟨[0], none⟩] 0
      (some fun _ => some ⟨[0, 1], 0⟩) 1 [0, 1] = some [⟨[0], none⟩] ∧
    (⟨[0], some fun _ => false⟩ : NameSub) ∉ [(⟨[0], none⟩ : NameSub)] :=
  ⟨rfl, fun _ => rfl, rfl, rfl,
   alwaysFalse_filter_never_delivered [⟨[0], some fun _ => false⟩, ⟨[0], none⟩] 0
     (fun _ => some ⟨[0, 1], 0⟩) 1 [0, 1] ⟨[0], some fun _ => false⟩
     (fun _ => false) ⟨[0, 1], 0⟩ [⟨[0], none⟩] rfl (fun _ => rfl) rfl rfl⟩

/-- C8: mapping retrieval partitions the sequence numbers of `[lo, hi]` into
consecutive non-empty batches of at most `k` entries, each a contiguous range
covered exactly by its request's first-through-last bounds; for range [1,25]
with batch size 10, exactly the 3 requests [1,10], [11,20], [21,25] are
issued. -/
theorem retrieveMapping_batching (k lo hi : Nat) (hk : 0 < k) :
    (chunksOf k (seqNums lo hi)).flatten = seqNums lo hi ∧
    (∀ c ∈ chunksOf k (seqNums lo hi), c ≠ [] ∧ c.length ≤ k) ∧
    (∀ c ∈ chunksOf k (seqNums lo hi), c = seqNums (c.headD 0) (c.getLastD 0)) ∧
    mappingRequests 10 1 25 = [(1, 10), (11, 20), (21, 25)] := by
  refine ⟨chunksOfGo_flatten k _ _ le_rfl, chunksOfGo_bounds k hk _ _, ?_, by decide⟩
  intro c hc
  rw [chunksOf, seqNums] at hc
  obtain ⟨s', n', hn', rfl⟩ :=
    chunksOfGo_range'_mem k _ lo (hi + 1 - lo) c (by rw [List.length_range']) hc
  rw [headD_range' _ _ hn', getLastD_range' _ _ _ hn', seqNums]
  congr 1
  omega

theorem retrieveMapping_batching_witness :
    0 < 10 ∧
    ((chunksOf 10 (seqNums 1 25)).flatten = seqNums 1 25 ∧
     (∀ c ∈ chunksOf 10 (seqNums 1 25), c ≠ [] ∧ c.length ≤ 10) ∧
     (∀ c ∈ chunksOf 10 (seqNums 1 25), c = seqNums (c.headD 0) (c.getLastD 0)) ∧
     mappingRequests 10 1 25 = [(1, 10), (11, 20), (21, 25)]) :=
  ⟨by decide, retrieveMapping_batching 10 1 25 (by decide)⟩

/-- C9: when segments 0..k-1 each arrive exactly once, in any order, segmented
retrieval reassembles the payload as the concatenation of the segment
contents in ascending segment-index order. -/
theorem retrieveSegmented_reassembles (k : Nat) (seg : Nat → List Nat)
    (arrivals : List (Nat × List Nat))
    (hp : arrivals.Perm ((List.range k).map fun i => (i, seg i))) :
    retrieveSegmented arrivals = ((List.range k).map seg).flatten := by
  have hlen : arrivals.length = k := by
    rw [hp.length_eq, List.length_map, List.length_range]
  have hkeys : (arrivals.map Prod.fst).Perm (List.range k) := by
    have h2 := hp.map Prod.fst
    rw [List.map_map] at h2
    simpa [Function.comp_def] using h2
  have hnd : (arrivals.map Prod.fst).Nodup :=
    hkeys.nodup_iff.mpr (List.nodup_range k)
  rw [retrieveSegmented, hlen]
  congr 1
  refine List.map_congr_left ?_
  intro i hi
  have hmem : (i, seg i) ∈ arrivals :=
    hp.mem_iff.mpr (List.mem_map.mpr ⟨i, hi, rfl⟩)
  rw [foldl_segStore_mem arrivals _ i (seg i) hnd hmem]
  rfl

theorem retrieveSegmented_reassembles_witness :
    ([(2, [20, 21]), (0, [0]), (1, [10])] : List (Nat × List Nat)).Perm
      ((List.range 3).map fun i => (i, [i * 10, i * 10 + 1].take (if i = 1 then 1 else i + 1))) ∧
    retrieveSegmented [(2, [20, 21]), (0, [0]), (1, [10])]
      = ((List.range 3).map
          fun i => [i * 10, i * 10 + 1].take (if i = 1 then 1 else i + 1)).flatten :=
  ⟨by decide,
   retrieveSegmented_reassembles 3
     (fun i => [i * 10, i * 10 + 1].take (if i = 1 then 1 else i + 1))
     [(2, [20, 21]), (0, [0]), (1, [10])] (by decide)⟩

/-- C10: a failure of `dispatchUpdate` for one sequence number of a
SyncUpdate's range is caught and reported through the error channel with a
message identifying the publisher and the sequence number, and every other
sequence number of the range is still processed (every succeeding one is
dispatched, and one outcome is produced per sequence number). -/
theorem handleSyncUpdate_error_isolated (id lo hi n : Nat) (e : String)
    (d : Nat → Except String Unit) (hmem : n ∈ seqNums lo hi)
    (herr : d n = .error e) :
    Except.error ⟨id, n, dispatchErrMsg id n e⟩ ∈ handleSyncUpdateResults id d lo hi ∧
    (∀ m, m ∈ seqNums lo hi → d m = .ok () →
      Except.ok m ∈ handleSyncUpdateResults id d lo hi) ∧
    (handleSyncUpdateResults id d lo hi).length = (seqNums lo hi).length := by
  refine ⟨?_, ?_, by rw [handleSyncUpdateResults, List.length_map]⟩
  · rw [handleSyncUpdateResults]
    refine List.mem_map.mpr ⟨n, hmem, ?_⟩
    rw [herr]
  · intro m hm hok
    rw [handleSyncUpdateResults]
    refine List.mem_map.mpr ⟨m, hm, ?_⟩
    rw [hok]

theorem handleSyncUpdate_error_isolated_witness :
    2 ∈ seqNums 1 3 ∧
    (fun x => if x = 2 then Except.error "boom" else Except.ok () :
      Nat → Except String Unit) 2 = Except.error "boom" ∧
    (Except.error ⟨7, 2, dispatchErrMsg 7 2 "boom"⟩ ∈
      handleSyncUpdateResults 7
        (fun x => if x = 2 then Except.error "boom" else Except.ok ()) 1 3 ∧
     (∀ m, m ∈ seqNums 1 3 →
        (fun x => if x = 2 then Except.error "boom" else Except.ok () :
          Nat → Except String Unit) m = Except.ok () →
        Except.ok m ∈ handleSyncUpdateResults 7
          (fun x => if x = 2 then Except.error "boom" else Except.ok ()) 1 3) ∧
     (handleSyncUpdateResults 7
        (fun x => if x = 2 then Except.error "boom" else Except.ok ()) 1 3).length
       = (seqNums 1 3).length) :=
  ⟨by decide, rfl,
   handleSyncUpdate_error_isolated 7 1 3 2 "boom"
     (fun x => if x = 2 then Except.error "boom" else Except.ok ())
     (by decide) rfl⟩

end NDNtsSvs
